import Mathlib

/-!
# Minesweeper board engine (src/main.cpp, section "Game Logic")

Shallow embedding of the game logic of `src/main.cpp` and of the click
dispatcher `glfw_click_callback`.

* The global arrays `cells`, `values`, `visited` (all of size `nCells`) are
  total maps from an index to the stored value; only indices below `nCells`
  are ever read or written by the code for a valid click index.
* Cell contents and the two flag counters are C `int`s, modelled as `Int`
  (all values stay far away from the machine bounds).
* Cell indices are non-negative in every call the program makes, modelled as
  `Nat`; every subtraction in `visitNeighbors` is guarded so that it does not
  truncate.
* The random source `randCell(mt)` is a list of draws consumed from the front.
-/

namespace Minesweeper

/-! ## Constants and data model -/

def nMines : Nat := 150
def width : Nat := 30
def height : Nat := 30
def nCells : Nat := width * height

/-- Ordinals of `enum CellType`: the numbers 0..8 are their own value. -/
def ZERO : Int := 0
def EIGHT : Int := 8
def MINE : Int := 9
def FLAG : Int := 10
def UNKNOWN : Int := 11

/-- The anonymous enum of the global `state`. -/
inductive GameState where
  | UNINITIALIZED
  | RUNNING
  | GAME_OVER
  deriving DecidableEq

open GameState

/-- The global variables of the game logic. -/
structure Game where
  cells : Nat → Int
  values : Nat → Int
  visited : Nat → Bool
  nCorrectFlags : Int
  nIncorrectFlags : Int
  state : GameState

/-! ## visitNeighbors -/

/-- Embedding of `visitNeighbors(index, accept)`: the callback acts on a threaded
state `σ`; the eight guarded calls are made in the order of the source. -/
def visitNeighbors {σ : Type} (index : Nat) (accept : Nat → σ → σ) (s : σ) : σ :=
  let y := index / width
  let x := index % width
  let left := decide (x > 0)
  let right := decide (x < width - 1)
  let top := decide (y > 0)
  let bot := decide (y < height - 1)
  let s := if left && top then accept (index - width - 1) s else s
  let s := if left then accept (index - 1) s else s
  let s := if left && bot then accept (index + width - 1) s else s
  let s := if bot then accept (index + width) s else s
  let s := if right && bot then accept (index + width + 1) s else s
  let s := if right then accept (index + 1) s else s
  let s := if right && top then accept (index - width + 1) s else s
  let s := if top then accept (index - width) s else s
  s

/-- The arguments of the calls `visitNeighbors(index, accept)` makes, in call
order: the visitor run with a callback that records its argument. -/
def neighbors (index : Nat) : List Nat :=
  visitNeighbors index (fun j acc => acc ++ [j]) []

/-! ## Board initialisation -/

/-- Embedding of `tryIncrement(index)`. -/
def tryIncrement (index : Nat) (s : Game) : Game :=
  if s.values index < 8 then
    { s with values := Function.update s.values index (s.values index + 1) }
  else s

/-- The body of the loop of `initGame()` for one `c`. -/
def initGameStep (s : Game) (c : Nat) : Game :=
  { s with cells := Function.update s.cells c UNKNOWN,
           values := Function.update s.values c ZERO }

/-- Embedding of `initGame()`: the loop over `c = 0 .. nCells-1`, then the state. -/
def initGame (s : Game) : Game :=
  let s := (List.range nCells).foldl initGameStep s
  { s with state := UNINITIALIZED }

/-- The placement loop of `initBoard`, `for (int c = 0; c < nMines;)`. The list is
the sequence of values returned by `randCell(mt)`; `none` means that the draws
ran out while the loop was still asking for one. -/
def initBoardLoop (firstClickIndex : Nat) : List Nat → Nat → Game → Option Game
  | [], c, s => if c < nMines then none else some s
  | index :: draws, c, s =>
    if c < nMines then
      if index ≠ firstClickIndex ∧ s.values index ≠ MINE then
        initBoardLoop firstClickIndex draws (c + 1)
          (visitNeighbors index tryIncrement
            { s with values := Function.update s.values index MINE })
      else
        initBoardLoop firstClickIndex draws c s
    else some s

/-- Embedding of `initBoard(firstClickIndex)`. -/
def initBoard (firstClickIndex : Nat) (draws : List Nat) (s : Game) : Option Game :=
  (initBoardLoop firstClickIndex draws 0 s).map fun s =>
    { s with nCorrectFlags := 0, nIncorrectFlags := 0, state := RUNNING }

/-! ## Revealing -/

/-- The body of the loop of `gameOver()` for one `c`. -/
def gameOverStep (s : Game) (c : Nat) : Game :=
  if s.cells c ≠ FLAG ∨ s.values c ≠ MINE then
    { s with cells := Function.update s.cells c (s.values c) }
  else s

/-- Embedding of `gameOver()`: the loop over `c = 0 .. nCells-1`, then the state. -/
def gameOver (s : Game) : Game :=
  let s := (List.range nCells).foldl gameOverStep s
  { s with state := GAME_OVER }

/-- Embedding of `expandCellInner(index)`. The first argument bounds the depth of
the recursion; `none` means the bound was hit. -/
def expandCellInner : Nat → Nat → Game → Option Game
  | 0, _, _ => none
  | fuel + 1, index, s =>
    if !s.visited index then
      let s := { s with visited := Function.update s.visited index true }
      let s := { s with cells := Function.update s.cells index (s.values index) }
      if s.values index = ZERO then
        visitNeighbors index (fun j r => r.bind (expandCellInner fuel j)) (some s)
      else some s
    else some s

/-- Embedding of `expandCell(index)`; `memset` clears the `nCells` entries of
`visited`. The recursion is run with depth bound `nCells`. -/
def expandCell (index : Nat) (s : Game) : Option Game :=
  let s := { s with visited := fun c => if c < nCells then false else s.visited c }
  let s := { s with visited := Function.update s.visited index true }
  visitNeighbors index (fun j r => r.bind (expandCellInner nCells j)) (some s)

/-- Embedding of `openCell(index)`. -/
def openCell (index : Nat) (s : Game) : Option Game :=
  let value := s.values index
  let s := { s with cells := Function.update s.cells index value }
  if value = MINE then some (gameOver s)
  else if value = ZERO then expandCell index s
  else some s

/-- Embedding of `tryOpenCell(index)`. -/
def tryOpenCell (index : Nat) (s : Game) : Option Game :=
  if s.cells index = UNKNOWN then openCell index s else some s

/-- Embedding of `openAll(index)`. -/
def openAll (index : Nat) (s : Game) : Option Game :=
  if s.cells index = UNKNOWN then some s
  else
    let neighborFlags : Int :=
      visitNeighbors index
        (fun neighbor n => if s.cells neighbor = FLAG then n + 1 else n) 0
    if neighborFlags = s.cells index then
      visitNeighbors index (fun j r => r.bind (tryOpenCell j)) (some s)
    else some s

/-! ## Flags -/

/-- The `switch` statement of `flagCell(index)`: the toggle and the counter update. -/
def flagToggle (index : Nat) (s : Game) : Game :=
  if s.cells index = UNKNOWN then
    let s := { s with cells := Function.update s.cells index FLAG }
    if s.values index = MINE then { s with nCorrectFlags := s.nCorrectFlags + 1 }
    else { s with nIncorrectFlags := s.nIncorrectFlags + 1 }
  else if s.cells index = FLAG then
    let s := { s with cells := Function.update s.cells index UNKNOWN }
    if s.values index = MINE then { s with nCorrectFlags := s.nCorrectFlags - 1 }
    else { s with nIncorrectFlags := s.nIncorrectFlags - 1 }
  else s

/-- Embedding of `flagCell(index)`: the toggle, then the win test. -/
def flagCell (index : Nat) (s : Game) : Game :=
  let s := flagToggle index s
  if s.nCorrectFlags = nMines ∧ s.nIncorrectFlags = 0 then gameOver s else s

/-! ## Click dispatch -/

/-- The mouse buttons the click handler tells apart. -/
inductive MouseButton where
  | LEFT
  | RIGHT
  | MIDDLE
  | OTHER
  deriving DecidableEq

/-- Embedding of `glfw_click_callback`. `release` is `action == GLFW_RELEASE`,
`cellIndex` the result of `getCellIndex` (negative when the cursor is outside
the board) and `draws` the values `randCell(mt)` returns during this call. -/
def glfw_click_callback (button : MouseButton) (release : Bool) (cellIndex : Int)
    (draws : List Nat) (s : Game) : Option Game :=
  if !release then some s
  else if s.state = GAME_OVER then some (initGame s)
  else if cellIndex < 0 then some s
  else
    let index := cellIndex.toNat
    (if s.state = UNINITIALIZED then initBoard index draws s else some s).bind fun s =>
      match button with
      | MouseButton.RIGHT => some (flagCell index s)
      | MouseButton.LEFT => openCell index s
      | MouseButton.MIDDLE => openAll index s
      | MouseButton.OTHER => some s

/-! ## Concrete inputs -/

/-- The globals as the C++ runtime zero-initialises them at process start, before
`setup()` calls `initGame()`. -/
def startup : Game :=
  { cells := fun _ => 0, values := fun _ => 0, visited := fun _ => false,
    nCorrectFlags := 0, nIncorrectFlags := 0, state := UNINITIALIZED }

/-- A sequence of draws for one placement: 0, 1, ..., 150. With first click on
cell 0 the draw 0 is rejected and the mines go to cells 1..150. -/
def demoDraws : List Nat := 0 :: List.range' 1 150

/-- A running board with a single mine, in cell 5 (row 0, column 5); the cells around
it (4, 6, 34, 35, 36) hold 1, all others 0; every cell is still hidden. -/
def oneMine : Game :=
  { cells := fun _ => UNKNOWN,
    values := fun c =>
      if c = 5 then MINE
      else if c = 4 ∨ c = 6 ∨ c = 34 ∨ c = 35 ∨ c = 36 then 1
      else ZERO,
    visited := fun _ => false, nCorrectFlags := 0, nIncorrectFlags := 0, state := RUNNING }

/-- The board `oneMine` with the flag counters set as in a game in which 149 mines are
already flagged correctly and no flag is wrong (only the counters matter to the win test
of `flagCell`). -/
def lastFlag : Game :=
  { oneMine with nCorrectFlags := 149 }

/-- A running board with mines in cells 2 (row 0, column 2) and 60 (row 2, column 0) and
the matching numbers around them. Cell 1 has been revealed (it shows 1), cell 0 carries
a flag although it is no mine, everything else is hidden. -/
def chordBoard : Game :=
  { cells := fun c => if c = 1 then 1 else if c = 0 then FLAG else UNKNOWN,
    values := fun c =>
      if c = 2 ∨ c = 60 then MINE
      else if c = 31 then 2
      else if c = 1 ∨ c = 3 ∨ c = 32 ∨ c = 33 ∨ c = 30 ∨ c = 61 ∨ c = 90 ∨ c = 91 then 1
      else ZERO,
    visited := fun _ => false, nCorrectFlags := 0, nIncorrectFlags := 1, state := RUNNING }

/-! ## Vocabulary of the specification -/

/-- Number of cells of the board whose true value is MINE. -/
def mineCount (values : Nat → Int) : Nat :=
  (List.range nCells).countP fun c => decide (values c = MINE)

/-- Number of cells in the neighbour set of `c` whose true value is MINE. -/
def minedNeighbors (values : Nat → Int) (c : Nat) : Nat :=
  (neighbors c).countP fun j => decide (values j = MINE)

/-- Number of cells in the neighbour set of `index` displayed as FLAG. -/
def flaggedNeighbors (cells : Nat → Int) (index : Nat) : Nat :=
  (neighbors index).countP fun j => decide (cells j = FLAG)

/-- Number of cells of the board displayed as FLAG. -/
def flagCount (cells : Nat → Int) : Nat :=
  (List.range nCells).countP fun c => decide (cells c = FLAG)

/-- Invariant of the placement loop of `initBoard` after `c` accepted draws. -/
structure PlacementInv (firstClickIndex c : Nat) (s : Game) : Prop where
  count : mineCount s.values = c
  first : s.values firstClickIndex ≠ MINE
  number : ∀ x, x < nCells → s.values x ≠ MINE →
    s.values x = (minedNeighbors s.values x : Int)

/-- One expansion step of the cascade: from a cell whose true value is 0 to one of
the cells of its neighbour set. -/
def ZeroStep (values : Nat → Int) (a b : Nat) : Prop :=
  values a = ZERO ∧ b ∈ neighbors a

/-- The zero-connected region of `i`: `c` is `i` itself, or is reached from `i` by a
chain of neighbour steps in which every cell before `c` has true value 0. -/
def InRegion (values : Nat → Int) (i c : Nat) : Prop :=
  Relation.ReflTransGen (ZeroStep values) i c

/-- Number of cells of the board not yet marked in `visited`. -/
def unvisited (s : Game) : Nat :=
  (List.range nCells).countP fun c => !s.visited c

/-- Relation between the state `s` before and the state `t` after a series of calls of
`expandCellInner` on the cells in `src`. -/
structure ExpandPost (src : Nat → Prop) (s t : Game) : Prop where
  values_eq : t.values = s.values
  correct_eq : t.nCorrectFlags = s.nCorrectFlags
  incorrect_eq : t.nIncorrectFlags = s.nIncorrectFlags
  state_eq : t.state = s.state
  mono : ∀ c, s.visited c = true → t.visited c = true
  src_visited : ∀ k, src k → t.visited k = true
  fresh : ∀ c, t.visited c = true → s.visited c = false →
    t.cells c = s.values c ∧ ∃ k, src k ∧ InRegion s.values k c
  closed : ∀ c, t.visited c = true → s.visited c = false → s.values c = ZERO →
    ∀ n ∈ neighbors c, t.visited n = true
  stale : ∀ c, s.visited c = true ∨ t.visited c = false → t.cells c = s.cells c

/-- Relation between the state `s` before and the state `t` after a series of reveal
calls (`openCell`, `tryOpenCell`, `openAll`): true values and counters are kept, the game
state is kept or becomes GAME_OVER, and a cell either keeps its display or shows its
true value. -/
structure OpenPost (s t : Game) : Prop where
  values_eq : t.values = s.values
  correct_eq : t.nCorrectFlags = s.nCorrectFlags
  incorrect_eq : t.nIncorrectFlags = s.nIncorrectFlags
  state_eq : t.state = s.state ∨ t.state = GAME_OVER
  cells_eq : ∀ c, t.cells c = s.cells c ∨ t.cells c = s.values c

/-! # Properties -/

/-! ## Neighbourhoods -/

theorem visitNeighbors_eq_foldl {σ : Type} (i : Nat) (accept : Nat → σ → σ) (s : σ) :
    visitNeighbors i accept s = (neighbors i).foldl (fun s j => accept j s) s := by
  unfold neighbors visitNeighbors
  by_cases h1 : i % width > 0 <;> by_cases h2 : i % width < width - 1 <;>
    by_cases h3 : i / width > 0 <;> by_cases h4 : i / width < height - 1 <;>
    simp [h1, h2, h3, h4]

theorem mem_neighbors_iff (i j : Nat) (hi : i < nCells) :
    j ∈ neighbors i ↔
      (j < nCells ∧ j ≠ i ∧ j % width ≤ i % width + 1 ∧ i % width ≤ j % width + 1 ∧
        j / width ≤ i / width + 1 ∧ i / width ≤ j / width + 1) := by
  unfold neighbors visitNeighbors
  simp only [width, height, nCells] at *
  by_cases h1 : i % 30 > 0 <;> by_cases h2 : i % 30 < 30 - 1 <;>
    by_cases h3 : i / 30 > 0 <;> by_cases h4 : i / 30 < 30 - 1 <;>
    simp [h1, h2, h3, h4] <;> omega

theorem neighbors_nodup (i : Nat) : (neighbors i).Nodup := by
  unfold neighbors visitNeighbors
  simp only [width, height, nCells] at *
  by_cases h1 : i % 30 > 0 <;> by_cases h2 : i % 30 < 30 - 1 <;>
    by_cases h3 : i / 30 > 0 <;> by_cases h4 : i / 30 < 30 - 1 <;>
    simp [h1, h2, h3, h4] <;> omega

theorem neighbors_length_le (i : Nat) : (neighbors i).length ≤ 8 := by
  unfold neighbors visitNeighbors
  by_cases h1 : i % width > 0 <;> by_cases h2 : i % width < width - 1 <;>
    by_cases h3 : i / width > 0 <;> by_cases h4 : i / width < height - 1 <;>
    simp [h1, h2, h3, h4]

/-! ## The two whole-board loops -/

theorem gameOver_fold (s : Game) (n : Nat) :
    ((List.range n).foldl gameOverStep s).values = s.values ∧
    ((List.range n).foldl gameOverStep s).visited = s.visited ∧
    ((List.range n).foldl gameOverStep s).nCorrectFlags = s.nCorrectFlags ∧
    ((List.range n).foldl gameOverStep s).nIncorrectFlags = s.nIncorrectFlags ∧
    ((List.range n).foldl gameOverStep s).state = s.state ∧
      ∀ c, ((List.range n).foldl gameOverStep s).cells c =
        if c < n then (if s.cells c ≠ FLAG ∨ s.values c ≠ MINE then s.values c else s.cells c)
        else s.cells c := by
  induction n with
  | zero => simp
  | succ n ih =>
    simp only [List.range_succ, List.foldl_append, List.foldl_cons, List.foldl_nil]
    obtain ⟨h1, h2, h3, h4, h5, h6⟩ := ih
    have hn := h6 n
    simp only [lt_irrefl, if_false] at hn
    generalize (List.range n).foldl gameOverStep s = t at *
    unfold gameOverStep
    rw [hn, h1]
    split_ifs with hc
    · refine ⟨rfl, h2, h3, h4, h5, fun c => ?_⟩
      by_cases hcn : c = n
      · subst hcn; simp [hc]
      · have : c < n + 1 ↔ c < n := by omega
        simp only [Function.update_noteq hcn, h6 c, this]
    · refine ⟨h1, h2, h3, h4, h5, fun c => ?_⟩
      by_cases hcn : c = n
      · subst hcn; simp [hc, hn]
      · have : c < n + 1 ↔ c < n := by omega
        simp only [h6 c, this]

theorem gameOver_cells (s : Game) (c : Nat) :
    (gameOver s).cells c =
      if c < nCells then (if s.cells c ≠ FLAG ∨ s.values c ≠ MINE then s.values c else s.cells c)
      else s.cells c := by
  simp only [gameOver]
  exact (gameOver_fold s nCells).2.2.2.2.2 c

theorem gameOver_values (s : Game) : (gameOver s).values = s.values := by
  simp only [gameOver]
  exact (gameOver_fold s nCells).1

theorem gameOver_visited (s : Game) : (gameOver s).visited = s.visited := by
  simp only [gameOver]
  exact (gameOver_fold s nCells).2.1

theorem gameOver_nCorrectFlags (s : Game) : (gameOver s).nCorrectFlags = s.nCorrectFlags := by
  simp only [gameOver]
  exact (gameOver_fold s nCells).2.2.1

theorem gameOver_nIncorrectFlags (s : Game) :
    (gameOver s).nIncorrectFlags = s.nIncorrectFlags := by
  simp only [gameOver]
  exact (gameOver_fold s nCells).2.2.2.1

theorem gameOver_state (s : Game) : (gameOver s).state = GAME_OVER := rfl

theorem initGame_fold (s : Game) (n : Nat) :
    ((List.range n).foldl initGameStep s).visited = s.visited ∧
    ((List.range n).foldl initGameStep s).nCorrectFlags = s.nCorrectFlags ∧
    ((List.range n).foldl initGameStep s).nIncorrectFlags = s.nIncorrectFlags ∧
    ((List.range n).foldl initGameStep s).state = s.state ∧
      (∀ c, ((List.range n).foldl initGameStep s).cells c = if c < n then UNKNOWN else s.cells c) ∧
      ∀ c, ((List.range n).foldl initGameStep s).values c = if c < n then ZERO else s.values c := by
  induction n with
  | zero => simp
  | succ n ih =>
    simp only [List.range_succ, List.foldl_append, List.foldl_cons, List.foldl_nil]
    obtain ⟨h1, h2, h3, h4, h5, h6⟩ := ih
    generalize (List.range n).foldl initGameStep s = t at *
    unfold initGameStep
    refine ⟨h1, h2, h3, h4, fun c => ?_, fun c => ?_⟩
    · by_cases hcn : c = n
      · subst hcn; simp
      · have : c < n + 1 ↔ c < n := by omega
        simp only [Function.update_noteq hcn, h5 c, this]
    · by_cases hcn : c = n
      · subst hcn; simp
      · have : c < n + 1 ↔ c < n := by omega
        simp only [Function.update_noteq hcn, h6 c, this]

theorem initGame_cells (s : Game) (c : Nat) :
    (initGame s).cells c = if c < nCells then UNKNOWN else s.cells c := by
  simp only [initGame]
  exact (initGame_fold s nCells).2.2.2.2.1 c

theorem initGame_values (s : Game) (c : Nat) :
    (initGame s).values c = if c < nCells then ZERO else s.values c := by
  simp only [initGame]
  exact (initGame_fold s nCells).2.2.2.2.2 c

theorem initGame_state (s : Game) : (initGame s).state = UNINITIALIZED := rfl

/-! ## Neighbour enumeration, game over and the win test -/

/-- C9: for a valid index `i`, `visitNeighbors(i, accept)` makes exactly the calls
`accept(j)` for `j` in `neighbors i` in order; that list has no repetition, has at most 8
entries, and contains exactly the in-range `j ≠ i` whose column and row differ from those of
`i` by at most one (so no wraparound). -/
theorem visitNeighbors_calls (i : Nat) (hi : i < nCells) :
    (∀ (σ : Type) (accept : Nat → σ → σ) (s : σ),
        visitNeighbors i accept s = (neighbors i).foldl (fun s j => accept j s) s) ∧
      (neighbors i).Nodup ∧
      (∀ j, j ∈ neighbors i ↔
        (j < nCells ∧ j ≠ i ∧
          |((j % width : Nat) : Int) - ((i % width : Nat) : Int)| ≤ 1 ∧
          |((j / width : Nat) : Int) - ((i / width : Nat) : Int)| ≤ 1)) ∧
      (neighbors i).length ≤ 8 := by
  refine ⟨fun σ accept s => visitNeighbors_eq_foldl i accept s, neighbors_nodup i,
    fun j => ?_, neighbors_length_le i⟩
  rw [mem_neighbors_iff i j hi, abs_le, abs_le]
  constructor
  · rintro ⟨h1, h2, h3, h4, h5, h6⟩
    refine ⟨h1, h2, ⟨?_, ?_⟩, ⟨?_, ?_⟩⟩ <;> omega
  · rintro ⟨h1, h2, ⟨h3, h4⟩, ⟨h5, h6⟩⟩
    refine ⟨h1, h2, ?_, ?_, ?_, ?_⟩ <;> omega

/-- Witness for C9 at the interior cell 31 (column 1, row 1). -/
theorem visitNeighbors_calls_witness :
    31 < nCells ∧
      ((∀ (σ : Type) (accept : Nat → σ → σ) (s : σ),
          visitNeighbors 31 accept s = (neighbors 31).foldl (fun s j => accept j s) s) ∧
        (neighbors 31).Nodup ∧
        (∀ j, j ∈ neighbors 31 ↔
          (j < nCells ∧ j ≠ 31 ∧
            |((j % width : Nat) : Int) - ((31 % width : Nat) : Int)| ≤ 1 ∧
            |((j / width : Nat) : Int) - ((31 / width : Nat) : Int)| ≤ 1)) ∧
        (neighbors 31).length ≤ 8) :=
  ⟨by decide, visitNeighbors_calls 31 (by decide)⟩

/-- C4: opening a cell whose true value is MINE ends the game, shows the cell as MINE,
keeps every correctly placed flag and shows the true value of every other cell; true values
are unchanged. -/
theorem openCell_mine (s : Game) (i : Nat) (hi : i < nCells) (hv : s.values i = MINE) :
    ∃ t, openCell i s = some t ∧ t.state = GAME_OVER ∧ t.cells i = MINE ∧
      (∀ c, c < nCells → c ≠ i →
        t.cells c = if s.cells c = FLAG ∧ s.values c = MINE then FLAG else s.values c) ∧
      t.values = s.values := by
  refine ⟨gameOver { s with cells := Function.update s.cells i (s.values i) },
    by simp [openCell, hv], gameOver_state _, ?_, ?_, ?_⟩
  · rw [gameOver_cells]
    simp [hi, hv, MINE, FLAG]
  · intro c hc hci
    rw [gameOver_cells]
    simp only [hc, if_true, Function.update_noteq hci]
    by_cases h1 : s.cells c = FLAG <;> by_cases h2 : s.values c = MINE <;> simp [h1, h2]
  · rw [gameOver_values]

/-- Witness for C4: cell 5 is a mine nobody flagged. -/
theorem openCell_mine_witness :
    (5 < nCells ∧ oneMine.values 5 = MINE) ∧
      ∃ t, openCell 5 oneMine = some t ∧ t.state = GAME_OVER ∧ t.cells 5 = MINE ∧
        (∀ c, c < nCells → c ≠ 5 →
          t.cells c =
            if oneMine.cells c = FLAG ∧ oneMine.values c = MINE then FLAG
            else oneMine.values c) ∧
        t.values = oneMine.values :=
  ⟨⟨by decide, by decide⟩, openCell_mine oneMine 5 (by decide) (by decide)⟩

theorem flagCell_state (index : Nat) (s : Game) :
    (flagCell index s).state =
      if (flagToggle index s).nCorrectFlags = nMines ∧ (flagToggle index s).nIncorrectFlags = 0
      then GAME_OVER else (flagToggle index s).state := by
  simp only [flagCell]
  split_ifs <;> rfl

theorem flagToggle_state (index : Nat) (s : Game) : (flagToggle index s).state = s.state := by
  simp only [flagToggle]
  split_ifs <;> rfl

theorem flagToggle_values (index : Nat) (s : Game) : (flagToggle index s).values = s.values := by
  simp only [flagToggle]
  split_ifs <;> rfl

/-- C5: with `t` the state after the toggle and counter update of `flagCell(index)`: when
`t.nCorrectFlags = nMines` and `t.nIncorrectFlags = 0` the call ends in GAME_OVER with every
mine cell displayed as FLAG or MINE; otherwise the game state is the one before the call. -/
theorem flagCell_win (s : Game) (index : Nat) (_hi : index < nCells) :
    ((flagToggle index s).nCorrectFlags = nMines ∧ (flagToggle index s).nIncorrectFlags = 0 →
        (flagCell index s).state = GAME_OVER ∧
          ∀ c, c < nCells → s.values c = MINE →
            (flagCell index s).cells c = FLAG ∨ (flagCell index s).cells c = MINE) ∧
      (¬((flagToggle index s).nCorrectFlags = nMines ∧
            (flagToggle index s).nIncorrectFlags = 0) →
        (flagCell index s).state = s.state) := by
  constructor
  · intro h
    refine ⟨by rw [flagCell_state, if_pos h], fun c hc hv => ?_⟩
    have hfc : flagCell index s = gameOver (flagToggle index s) := by
      unfold flagCell; simp only [h, and_self, if_true]
    rw [hfc, gameOver_cells, flagToggle_values]
    simp only [hc, if_true, hv]
    by_cases hf : (flagToggle index s).cells c = FLAG <;> simp [hf]
  · intro h
    rw [flagCell_state, if_neg h, flagToggle_state]

/-- Witness for C5: 149 mines are flagged and the flag toggled now is on the last mine. -/
theorem flagCell_win_witness :
    5 < nCells ∧
      (((flagToggle 5 lastFlag).nCorrectFlags = nMines ∧
            (flagToggle 5 lastFlag).nIncorrectFlags = 0 →
          (flagCell 5 lastFlag).state = GAME_OVER ∧
            ∀ c, c < nCells → lastFlag.values c = MINE →
              (flagCell 5 lastFlag).cells c = FLAG ∨ (flagCell 5 lastFlag).cells c = MINE) ∧
        (¬((flagToggle 5 lastFlag).nCorrectFlags = nMines ∧
              (flagToggle 5 lastFlag).nIncorrectFlags = 0) →
          (flagCell 5 lastFlag).state = lastFlag.state)) :=
  ⟨by decide, flagCell_win lastFlag 5 (by decide)⟩

/-! ## Mine placement -/

theorem neighbors_lt {i j : Nat} (hi : i < nCells) (h : j ∈ neighbors i) : j < nCells :=
  ((mem_neighbors_iff i j hi).1 h).1

theorem neighbors_symm {i j : Nat} (hi : i < nCells) (h : j ∈ neighbors i) :
    i ∈ neighbors j := by
  have hj := neighbors_lt hi h
  rw [mem_neighbors_iff i j hi] at h
  rw [mem_neighbors_iff j i hj]
  obtain ⟨_, h2, h3, h4, h5, h6⟩ := h
  exact ⟨hi, fun e => h2 e.symm, h4, h3, h6, h5⟩

theorem tryIncrement_values (j : Nat) (s : Game) (c : Nat) :
    (tryIncrement j s).values c =
      if c = j ∧ s.values j < 8 then s.values j + 1 else s.values c := by
  unfold tryIncrement
  by_cases h : s.values j < 8
  · by_cases hc : c = j
    · subst hc; simp [h]
    · simp [h, hc]
  · simp [h]

theorem tryIncrement_foldl_values (l : List Nat) (hl : l.Nodup) (s : Game) (c : Nat) :
    (l.foldl (fun s j => tryIncrement j s) s).values c =
      if c ∈ l ∧ s.values c < 8 then s.values c + 1 else s.values c := by
  induction l generalizing s with
  | nil => simp
  | cons a l ih =>
    rw [List.nodup_cons] at hl
    rw [List.foldl_cons, ih hl.2, tryIncrement_values]
    by_cases hca : c = a
    · subst hca
      have hcl : c ∉ l := hl.1
      by_cases h8 : s.values c < 8 <;> simp [hcl, h8]
    · by_cases hcl : c ∈ l <;> simp [hca, hcl]

theorem tryIncrement_foldl_frame (l : List Nat) (s : Game) :
    (l.foldl (fun s j => tryIncrement j s) s).cells = s.cells ∧
    (l.foldl (fun s j => tryIncrement j s) s).visited = s.visited ∧
    (l.foldl (fun s j => tryIncrement j s) s).nCorrectFlags = s.nCorrectFlags ∧
    (l.foldl (fun s j => tryIncrement j s) s).nIncorrectFlags = s.nIncorrectFlags ∧
    (l.foldl (fun s j => tryIncrement j s) s).state = s.state := by
  induction l generalizing s with
  | nil => simp
  | cons a l ih =>
    rw [List.foldl_cons]
    obtain ⟨h1, h2, h3, h4, h5⟩ := ih (tryIncrement a s)
    have : (tryIncrement a s).cells = s.cells ∧ (tryIncrement a s).visited = s.visited ∧
        (tryIncrement a s).nCorrectFlags = s.nCorrectFlags ∧
        (tryIncrement a s).nIncorrectFlags = s.nIncorrectFlags ∧
        (tryIncrement a s).state = s.state := by
      unfold tryIncrement; split_ifs <;> simp
    exact ⟨h1.trans this.1, h2.trans this.2.1, h3.trans this.2.2.1, h4.trans this.2.2.2.1,
      h5.trans this.2.2.2.2⟩

/-- The values after `visitNeighbors(index, tryIncrement)`. -/
theorem visit_tryIncrement_values (index : Nat) (s : Game) (c : Nat) :
    (visitNeighbors index tryIncrement s).values c =
      if c ∈ neighbors index ∧ s.values c < 8 then s.values c + 1 else s.values c := by
  rw [visitNeighbors_eq_foldl]
  exact tryIncrement_foldl_values _ (neighbors_nodup index) s c

theorem countP_update_mine (v : Nat → Int) (index : Nat) (hv : v index ≠ MINE) (l : List Nat)
    (hl : l.Nodup) :
    l.countP (fun j => decide (Function.update v index MINE j = MINE)) =
      l.countP (fun j => decide (v j = MINE)) + if index ∈ l then 1 else 0 := by
  induction l with
  | nil => simp
  | cons a l ih =>
    rw [List.nodup_cons] at hl
    rw [List.countP_cons, List.countP_cons, ih hl.2]
    by_cases ha : a = index
    · subst ha
      have : a ∉ l := hl.1
      simp [this, hv]
    · have hne : index ≠ a := fun e => ha e.symm
      by_cases hm : index ∈ l
      · simp [Function.update_noteq ha, hm, hne]; omega
      · simp [Function.update_noteq ha, hm, hne]

theorem countP_lt_length_of_mem {l : List Nat} {p : Nat → Bool} {a : Nat} (ha : a ∈ l)
    (hp : p a = false) : l.countP p < l.length := by
  induction l with
  | nil => simp at ha
  | cons b l ih =>
    rw [List.countP_cons, List.length_cons]
    rcases List.mem_cons.1 ha with h | h
    · subst h
      have := List.countP_le_length p (l := l)
      simp [hp]; omega
    · have := ih h
      split_ifs <;> omega

theorem placeMine_isMine_iff (index : Nat) (s : Game) (x : Nat) :
    (visitNeighbors index tryIncrement
        { s with values := Function.update s.values index MINE }).values x = MINE ↔
      Function.update s.values index MINE x = MINE := by
  rw [visit_tryIncrement_values]
  simp only [MINE]
  split_ifs with h
  · constructor <;> intro h' <;> omega
  · rfl

theorem PlacementInv.step {f c index : Nat} {s : Game} (h : PlacementInv f c s)
    (hidx : index < nCells) (hne : index ≠ f) (hv : s.values index ≠ MINE) :
    PlacementInv f (c + 1)
      (visitNeighbors index tryIncrement
        { s with values := Function.update s.values index MINE }) := by
  have hmine := placeMine_isMine_iff index s
  refine ⟨?_, ?_, ?_⟩
  · unfold mineCount
    rw [← h.count]
    unfold mineCount
    have := countP_update_mine s.values index hv (List.range nCells) (List.nodup_range nCells)
    simp only [List.mem_range, hidx, if_true] at this
    rw [← this]
    exact List.countP_congr fun x _ => by simp only [hmine x]
  · rw [Ne, hmine, Function.update_noteq (Ne.symm hne)]
    exact h.first
  · intro x hx hxm
    rw [Ne, hmine] at hxm
    have hxi : x ≠ index := by
      rintro rfl
      exact hxm (by simp)
    rw [Function.update_noteq hxi] at hxm
    have hold := h.number x hx hxm
    have hcnt : minedNeighbors (visitNeighbors index tryIncrement
        { s with values := Function.update s.values index MINE }).values x =
        minedNeighbors s.values x + if index ∈ neighbors x then 1 else 0 := by
      unfold minedNeighbors
      rw [← countP_update_mine s.values index hv (neighbors x) (neighbors_nodup x)]
      exact List.countP_congr fun j _ => by simp only [hmine j]
    rw [hcnt, visit_tryIncrement_values]
    simp only [Function.update_noteq hxi]
    by_cases hmem : index ∈ neighbors x
    · have hsym : x ∈ neighbors index := neighbors_symm hx hmem
      have hlt : minedNeighbors s.values x < (neighbors x).length :=
        countP_lt_length_of_mem hmem (by simpa using hv)
      have hlen := neighbors_length_le x
      have h8 : s.values x < 8 := by rw [hold]; omega
      simp [hsym, hmem, hold]
      omega
    · have hsym : x ∉ neighbors index := fun hh => hmem (neighbors_symm hidx hh)
      simp [hsym, hmem, hold]

theorem initBoardLoop_inv (f : Nat) (draws : List Nat) (hd : ∀ d ∈ draws, d < nCells)
    (c : Nat) (hc : c ≤ nMines) (s t : Game) (h : PlacementInv f c s)
    (hrun : initBoardLoop f draws c s = some t) :
    PlacementInv f nMines t ∧ t.cells = s.cells ∧ t.visited = s.visited ∧
      t.nCorrectFlags = s.nCorrectFlags ∧ t.nIncorrectFlags = s.nIncorrectFlags ∧
      t.state = s.state := by
  induction draws generalizing c s with
  | nil =>
    unfold initBoardLoop at hrun
    split_ifs at hrun with hlt
    have : c = nMines := by omega
    cases hrun
    subst this
    exact ⟨h, rfl, rfl, rfl, rfl, rfl⟩
  | cons index draws ih =>
    have hd' : ∀ d ∈ draws, d < nCells := fun d hm => hd d (List.mem_cons_of_mem _ hm)
    unfold initBoardLoop at hrun
    split_ifs at hrun with hlt hacc
    · have hstep := h.step (hd index (List.mem_cons_self _ _)) hacc.1 hacc.2
      obtain ⟨r1, r2, r3, r4, r5, r6⟩ := ih hd' (c + 1) hlt _ hstep hrun
      rw [visitNeighbors_eq_foldl] at r2 r3 r4 r5 r6
      obtain ⟨q1, q2, q3, q4, q5⟩ := tryIncrement_foldl_frame (neighbors index)
        { s with values := Function.update s.values index MINE }
      exact ⟨r1, r2.trans q1, r3.trans q2, r4.trans q3, r5.trans q4, r6.trans q5⟩
    · exact ih hd' c hc s h hrun
    · have : c = nMines := by omega
      cases hrun
      subst this
      exact ⟨h, rfl, rfl, rfl, rfl, rfl⟩

theorem PlacementInv.init (s : Game) (f : Nat) (hf : f < nCells) :
    PlacementInv f 0 (initGame s) := by
  have hz : ∀ x, x < nCells → (initGame s).values x ≠ MINE := by
    intro x hx
    rw [initGame_values, if_pos hx]
    decide
  refine ⟨?_, hz f hf, ?_⟩
  · unfold mineCount
    rw [List.countP_eq_zero]
    intro x hx
    simpa using hz x (List.mem_range.1 hx)
  · intro x hx _
    have : minedNeighbors (initGame s).values x = 0 := by
      unfold minedNeighbors
      rw [List.countP_eq_zero]
      intro j hj
      simpa using hz j (neighbors_lt hx hj)
    rw [this, initGame_values, if_pos hx]
    rfl

/-- What a completed `initBoard` leaves behind when started right after `initGame`. -/
theorem initBoard_after_initGame (s t : Game) (f : Nat) (draws : List Nat) (hf : f < nCells)
    (hd : ∀ d ∈ draws, d < nCells) (hrun : initBoard f draws (initGame s) = some t) :
    PlacementInv f nMines t ∧ t.cells = (initGame s).cells ∧ t.nCorrectFlags = 0 ∧
      t.nIncorrectFlags = 0 ∧ t.state = RUNNING := by
  unfold initBoard at hrun
  rw [Option.map_eq_some'] at hrun
  obtain ⟨u, hu, rfl⟩ := hrun
  obtain ⟨r1, r2, -⟩ := initBoardLoop_inv f draws hd 0 (Nat.zero_le _) _ u
    (PlacementInv.init s f hf) hu
  exact ⟨⟨r1.count, r1.first, r1.number⟩, r2, rfl, rfl, rfl⟩

/-- C1: a completed `initBoard(f)` started from the state left by `initGame` leaves exactly
`nMines` cells with true value MINE, and `values[f]` is not MINE. -/
theorem initBoard_mineCount (s t : Game) (f : Nat) (draws : List Nat) (hf : f < nCells)
    (hd : ∀ d ∈ draws, d < nCells) (hrun : initBoard f draws (initGame s) = some t) :
    mineCount t.values = nMines ∧ t.values f ≠ MINE :=
  have h := (initBoard_after_initGame s t f draws hf hd hrun).1
  ⟨h.count, h.first⟩

theorem tryIncrement_isMine_iff (j : Nat) (u : Game) (x : Nat) :
    (tryIncrement j u).values x = MINE ↔ u.values x = MINE := by
  rw [tryIncrement_values]
  simp only [MINE]
  split_ifs with h
  · obtain ⟨rfl, h8⟩ := h
    constructor <;> intro h' <;> omega
  · rfl

/-- C2: after a completed `initBoard` on a freshly reset board every cell that is not a mine
holds a number in 0..8, equal to the number of cells of its neighbour set that are mines (no
increment was lost to the saturation at 8); and `tryIncrement` never turns a number into
MINE, nor a MINE into a number. -/
theorem initBoard_numbers (s t : Game) (f : Nat) (draws : List Nat) (hf : f < nCells)
    (hd : ∀ d ∈ draws, d < nCells) (hrun : initBoard f draws (initGame s) = some t) :
    (∀ c, c < nCells → t.values c ≠ MINE →
      0 ≤ t.values c ∧ t.values c ≤ 8 ∧ t.values c = (minedNeighbors t.values c : Int)) ∧
      ∀ (j : Nat) (u : Game) (x : Nat), (tryIncrement j u).values x = MINE ↔ u.values x = MINE := by
  refine ⟨fun c hc hm => ?_, tryIncrement_isMine_iff⟩
  have h := (initBoard_after_initGame s t f draws hf hd hrun).1.number c hc hm
  have h1 : minedNeighbors t.values c ≤ (neighbors c).length := List.countP_le_length _
  have h2 := neighbors_length_le c
  refine ⟨?_, ?_, h⟩ <;> rw [h] <;> omega

theorem demoDraws_lt : ∀ d ∈ demoDraws, d < nCells := by
  intro d hd
  simp only [demoDraws, List.mem_cons, List.mem_range'_1] at hd
  simp only [nCells, width, height]
  omega

/-- Completion of the placement loop: on draws that are pairwise different, different from
the first click and not yet mined, every draw is accepted; when they fill the counter up to
`nMines` the loop returns, and every draw is then a mine. -/
theorem initBoardLoop_accepts (f : Nat) (draws : List Nat) (c : Nat) (s : Game)
    (hnd : draws.Nodup) (hf : f ∉ draws) (hfree : ∀ d ∈ draws, s.values d ≠ MINE)
    (hlen : c + draws.length = nMines) :
    ∃ t, initBoardLoop f draws c s = some t ∧ (∀ d ∈ draws, t.values d = MINE) ∧
      ∀ x, s.values x = MINE → t.values x = MINE := by
  induction draws generalizing c s with
  | nil =>
    have hc : ¬c < nMines := by simp at hlen; omega
    exact ⟨s, by simp [initBoardLoop, hc], by simp, fun _ h => h⟩
  | cons d draws ih =>
    rw [List.nodup_cons] at hnd
    have hc : c < nMines := by simp at hlen; omega
    have hdf : d ≠ f := fun e => hf (e ▸ List.mem_cons_self _ _)
    have hdm : s.values d ≠ MINE := hfree d (List.mem_cons_self _ _)
    have hmine := placeMine_isMine_iff d s
    obtain ⟨t, ht, h1, h2⟩ := ih (c + 1)
      (visitNeighbors d tryIncrement { s with values := Function.update s.values d MINE })
      hnd.2 (fun h => hf (List.mem_cons_of_mem _ h))
      (fun x hx => by
        have hxd : x ≠ d := fun e => hnd.1 (e ▸ hx)
        rw [Ne, hmine, Function.update_noteq hxd]
        exact hfree x (List.mem_cons_of_mem _ hx))
      (by simp at hlen ⊢; omega)
    refine ⟨t, ?_, ?_, ?_⟩
    · simp only [initBoardLoop, hc, if_true, hdf, hdm, ne_eq, not_false_eq_true, and_self]
      exact ht
    · intro x hx
      rcases List.mem_cons.1 hx with rfl | hx
      · exact h2 x ((hmine x).2 (by simp))
      · exact h1 x hx
    · intro x hx
      apply h2 x
      rw [hmine]
      by_cases hxd : x = d
      · subst hxd; simp
      · rw [Function.update_noteq hxd]; exact hx

/-- The placement run on `demoDraws` with first click 0 completes, and the cells 1..150 are
then mines. -/
theorem demo_completes :
    ∃ t, initBoard 0 demoDraws (initGame startup) = some t ∧
      ∀ d, 1 ≤ d → d ≤ 150 → t.values d = MINE := by
  obtain ⟨t, ht, h1, -⟩ := initBoardLoop_accepts 0 (List.range' 1 150) 0 (initGame startup)
    (List.nodup_range' 1 150) (by simp)
    (fun d _ => by
      rw [initGame_values]
      split_ifs
      · decide
      · simp [startup, MINE])
    (by simp [nMines])
  refine ⟨{ t with nCorrectFlags := 0, nIncorrectFlags := 0, state := RUNNING }, ?_, ?_⟩
  · have hstep : initBoardLoop 0 demoDraws 0 (initGame startup) =
        initBoardLoop 0 (List.range' 1 150) 0 (initGame startup) := by
      unfold demoDraws
      rw [initBoardLoop, if_pos (by decide : 0 < nMines), if_neg (by simp)]
    simp only [initBoard, hstep, ht, Option.map_some']
  · intro d hd1 hd2
    exact h1 d (by rw [List.mem_range'_1]; omega)

/-- Witness for C1: the draws 0, 1, ..., 150 with first click on cell 0. -/
theorem initBoard_mineCount_witness :
    ∃ t, (0 < nCells ∧ (∀ d ∈ demoDraws, d < nCells) ∧
        initBoard 0 demoDraws (initGame startup) = some t) ∧
      mineCount t.values = nMines ∧ t.values 0 ≠ MINE := by
  obtain ⟨t, ht, -⟩ := demo_completes
  exact ⟨t, ⟨by decide, demoDraws_lt, ht⟩,
    initBoard_mineCount startup t 0 demoDraws (by decide) demoDraws_lt ht⟩

/-- Witness for C2: the draws 0, 1, ..., 150 with first click on cell 0. -/
theorem initBoard_numbers_witness :
    ∃ t, (0 < nCells ∧ (∀ d ∈ demoDraws, d < nCells) ∧
        initBoard 0 demoDraws (initGame startup) = some t) ∧
      (∀ c, c < nCells → t.values c ≠ MINE →
        0 ≤ t.values c ∧ t.values c ≤ 8 ∧ t.values c = (minedNeighbors t.values c : Int)) ∧
      ∀ (j : Nat) (u : Game) (x : Nat),
        (tryIncrement j u).values x = MINE ↔ u.values x = MINE := by
  obtain ⟨t, ht, -⟩ := demo_completes
  exact ⟨t, ⟨by decide, demoDraws_lt, ht⟩,
    initBoard_numbers startup t 0 demoDraws (by decide) demoDraws_lt ht⟩

/-! ## The cascade -/

theorem ExpandPost.none (s : Game) : ExpandPost (fun _ => False) s s where
  values_eq := rfl
  correct_eq := rfl
  incorrect_eq := rfl
  state_eq := rfl
  mono := fun _ h => h
  src_visited := fun _ h => h.elim
  fresh := fun c h1 h2 => by rw [h1] at h2; cases h2
  closed := fun c h1 h2 => by rw [h1] at h2; cases h2
  stale := fun _ _ => rfl

theorem ExpandPost.comp {P Q : Nat → Prop} {s u t : Game} (h1 : ExpandPost P s u)
    (h2 : ExpandPost Q u t) : ExpandPost (fun k => P k ∨ Q k) s t where
  values_eq := h2.values_eq.trans h1.values_eq
  correct_eq := h2.correct_eq.trans h1.correct_eq
  incorrect_eq := h2.incorrect_eq.trans h1.incorrect_eq
  state_eq := h2.state_eq.trans h1.state_eq
  mono := fun c hc => h2.mono c (h1.mono c hc)
  src_visited := fun k hk =>
    hk.elim (fun hp => h2.mono k (h1.src_visited k hp)) (h2.src_visited k)
  fresh := fun c htc hsc => by
    by_cases h : u.visited c = true
    · obtain ⟨e, k, hk, hr⟩ := h1.fresh c h hsc
      exact ⟨(h2.stale c (Or.inl h)).trans e, k, Or.inl hk, hr⟩
    · have h' : u.visited c = false := by simpa using h
      obtain ⟨e, k, hk, hr⟩ := h2.fresh c htc h'
      rw [h1.values_eq] at e hr
      exact ⟨e, k, Or.inr hk, hr⟩
  closed := fun c htc hsc hz n hn => by
    by_cases h : u.visited c = true
    · exact h2.mono n (h1.closed c h hsc hz n hn)
    · have h' : u.visited c = false := by simpa using h
      exact h2.closed c htc h' (by rw [h1.values_eq]; exact hz) n hn
  stale := fun c hc => by
    rcases hc with hc | hc
    · exact (h2.stale c (Or.inl (h1.mono c hc))).trans (h1.stale c (Or.inl hc))
    · have h' : u.visited c = false := by
        by_contra hne
        have := h2.mono c (by simpa using hne)
        rw [hc] at this
        cases this
      exact (h2.stale c (Or.inr hc)).trans (h1.stale c (Or.inr h'))

theorem ExpandPost.congr {P Q : Nat → Prop} {s t : Game} (h : ExpandPost P s t)
    (hpq : ∀ k, P k ↔ Q k) : ExpandPost Q s t where
  values_eq := h.values_eq
  correct_eq := h.correct_eq
  incorrect_eq := h.incorrect_eq
  state_eq := h.state_eq
  mono := h.mono
  src_visited := fun k hk => h.src_visited k ((hpq k).2 hk)
  fresh := fun c h1 h2 => by
    obtain ⟨e, k, hk, hr⟩ := h.fresh c h1 h2
    exact ⟨e, k, (hpq k).1 hk, hr⟩
  closed := h.closed
  stale := h.stale

theorem unvisited_mono {s t : Game} (h : ∀ c, s.visited c = true → t.visited c = true) :
    unvisited t ≤ unvisited s := by
  unfold unvisited
  apply List.countP_mono_left
  intro c _ hc
  by_contra hne
  have := h c (by simpa using hne)
  simp [this] at hc

theorem countP_update_visited (v : Nat → Bool) (j : Nat) (hv : v j = false) (l : List Nat)
    (hl : l.Nodup) :
    l.countP (fun c => !Function.update v j true c) + (if j ∈ l then 1 else 0) =
      l.countP (fun c => !v c) := by
  induction l with
  | nil => simp
  | cons a l ih =>
    rw [List.nodup_cons] at hl
    rw [List.countP_cons, List.countP_cons, ← ih hl.2]
    by_cases ha : a = j
    · subst ha
      have : a ∉ l := hl.1
      simp [this, hv]
    · have hne : j ≠ a := fun e => ha e.symm
      by_cases hm : j ∈ l
      · simp [Function.update_noteq ha, hm, hne]; omega
      · simp [Function.update_noteq ha, hm, hne]

theorem unvisited_mark (v : Nat → Bool) (j : Nat) (hj : j < nCells) (hv : v j = false) :
    (List.range nCells).countP (fun c => !Function.update v j true c) + 1 =
      (List.range nCells).countP (fun c => !v c) := by
  have := countP_update_visited v j hv (List.range nCells) (List.nodup_range nCells)
  simpa [hj] using this

/-- A series of calls of `expandCellInner`, as `visitNeighbors` issues them, given that a
single call with this depth bound behaves. -/
theorem expand_foldl (fuel : Nat)
    (ih : ∀ j s, j < nCells → unvisited s < fuel →
      ∃ t, expandCellInner fuel j s = some t ∧ ExpandPost (fun k => k = j) s t)
    (l : List Nat) (hl : ∀ k ∈ l, k < nCells) (s : Game) (hs : unvisited s < fuel) :
    ∃ t, l.foldl (fun r k => r.bind (expandCellInner fuel k)) (some s) = some t ∧
      ExpandPost (fun k => k ∈ l) s t := by
  induction l generalizing s with
  | nil => exact ⟨s, rfl, (ExpandPost.none s).congr (by simp)⟩
  | cons a l ihl =>
    obtain ⟨u, hu, pu⟩ := ih a s (hl a (List.mem_cons_self _ _)) hs
    have hu' : unvisited u < fuel := lt_of_le_of_lt (unvisited_mono pu.mono) hs
    obtain ⟨t, ht, pt⟩ := ihl (fun k hk => hl k (List.mem_cons_of_mem _ hk)) u hu'
    refine ⟨t, ?_, (pu.comp pt).congr (by simp)⟩
    rw [List.foldl_cons, Option.some_bind, hu]
    exact ht

/-- Entering an unvisited cell with true value 0: the recursive calls on its neighbours. -/
theorem ExpandPost.enter {j : Nat} {s t : Game} (hvis : s.visited j = false)
    (hz : s.values j = ZERO)
    (pt : ExpandPost (fun k => k ∈ neighbors j)
      { s with visited := Function.update s.visited j true,
               cells := Function.update s.cells j (s.values j) } t) :
    ExpandPost (fun k => k = j) s t where
  values_eq := pt.values_eq
  correct_eq := pt.correct_eq
  incorrect_eq := pt.incorrect_eq
  state_eq := pt.state_eq
  mono := fun c hc => pt.mono c (by
    by_cases hcj : c = j
    · subst hcj; simp
    · simpa [Function.update_noteq hcj] using hc)
  src_visited := fun k hk => by
    subst hk
    exact pt.mono k (by simp)
  fresh := fun c htc hsc => by
    by_cases hcj : c = j
    · subst hcj
      refine ⟨?_, c, rfl, Relation.ReflTransGen.refl⟩
      have := pt.stale c (Or.inl (by simp))
      simpa using this
    · obtain ⟨e, k, hk, hr⟩ := pt.fresh c htc (by simpa [Function.update_noteq hcj] using hsc)
      exact ⟨e, j, rfl, Relation.ReflTransGen.head ⟨hz, hk⟩ hr⟩
  closed := fun c htc hsc hzc n hn => by
    by_cases hcj : c = j
    · subst hcj
      exact pt.src_visited n hn
    · exact pt.closed c htc (by simpa [Function.update_noteq hcj] using hsc) hzc n hn
  stale := fun c hc => by
    have hcj : c ≠ j := by
      rintro rfl
      rcases hc with h | h
      · rw [hvis] at h; cases h
      · have := pt.mono c (by simp)
        rw [h] at this; cases this
    have := pt.stale c (hc.imp (fun h => by simpa [Function.update_noteq hcj] using h) id)
    simpa [Function.update_noteq hcj] using this

/-- Entering an unvisited cell with a nonzero true value: it is revealed, nothing else. -/
theorem ExpandPost.leaf {j : Nat} (s : Game) (hvis : s.visited j = false)
    (hz : s.values j ≠ ZERO) :
    ExpandPost (fun k => k = j) s
      { s with visited := Function.update s.visited j true,
               cells := Function.update s.cells j (s.values j) } where
  values_eq := rfl
  correct_eq := rfl
  incorrect_eq := rfl
  state_eq := rfl
  mono := fun c hc => by
    by_cases hcj : c = j
    · subst hcj; simp
    · simpa [Function.update_noteq hcj] using hc
  src_visited := fun k hk => by subst hk; simp
  fresh := fun c htc hsc => by
    by_cases hcj : c = j
    · subst hcj
      exact ⟨by simp, c, rfl, Relation.ReflTransGen.refl⟩
    · simp only [Function.update_noteq hcj] at htc
      rw [htc] at hsc; cases hsc
  closed := fun c htc hsc hzc n hn => by
    by_cases hcj : c = j
    · subst hcj
      exact absurd hzc hz
    · simp only [Function.update_noteq hcj] at htc
      rw [htc] at hsc; cases hsc
  stale := fun c hc => by
    by_cases hcj : c = j
    · subst hcj
      rcases hc with h | h
      · rw [hvis] at h; cases h
      · simp at h
    · simp [Function.update_noteq hcj]

/-- Total correctness of `expandCellInner`: with a depth bound above the number of unvisited
cells the call returns, and the result is described by `ExpandPost`. -/
theorem expandCellInner_post (fuel : Nat) :
    ∀ j s, j < nCells → unvisited s < fuel →
      ∃ t, expandCellInner fuel j s = some t ∧ ExpandPost (fun k => k = j) s t := by
  induction fuel with
  | zero => intro j s _ h; omega
  | succ fuel ih =>
    intro j s hj hs
    by_cases hvis : s.visited j = true
    · refine ⟨s, by simp [expandCellInner, hvis], ?_⟩
      exact
        { values_eq := rfl, correct_eq := rfl, incorrect_eq := rfl, state_eq := rfl
          mono := fun _ h => h
          src_visited := fun k hk => by rw [hk]; exact hvis
          fresh := fun c h1 h2 => by rw [h1] at h2; cases h2
          closed := fun c h1 h2 => by rw [h1] at h2; cases h2
          stale := fun _ _ => rfl }
    · have hvis' : s.visited j = false := by simpa using hvis
      by_cases hz : s.values j = ZERO
      · have hs1 : unvisited
            { s with visited := Function.update s.visited j true,
                     cells := Function.update s.cells j (s.values j) } < fuel := by
          have := unvisited_mark s.visited j hj hvis'
          unfold unvisited at hs ⊢
          simp only
          omega
        obtain ⟨t, ht, pt⟩ := expand_foldl fuel ih (neighbors j)
          (fun k hk => neighbors_lt hj hk) _ hs1
        refine ⟨t, ?_, ?_⟩
        · simp only [expandCellInner, hvis', Bool.not_false, if_true, hz]
          rw [visitNeighbors_eq_foldl]
          rw [hz] at ht
          exact ht
        · exact ExpandPost.enter hvis' hz pt
      · refine ⟨_, ?_, ExpandPost.leaf s hvis' hz⟩
        simp [expandCellInner, hvis', hz]

theorem inRegion_lt {values : Nat → Int} {i c : Nat} (hi : i < nCells)
    (h : InRegion values i c) : c < nCells := by
  induction h with
  | refl => exact hi
  | tail _ hbc ih => exact neighbors_lt ih hbc.2

/-- Total correctness of `expandCell` on a cell with true value 0: the call returns; it
reveals the other cells of the zero-connected region and touches nothing else. -/
theorem expandCell_post (s : Game) (i : Nat) (hi : i < nCells) (hz : s.values i = ZERO) :
    ∃ t, expandCell i s = some t ∧ t.values = s.values ∧
      t.nCorrectFlags = s.nCorrectFlags ∧ t.nIncorrectFlags = s.nIncorrectFlags ∧
      t.state = s.state ∧ t.cells i = s.cells i ∧
      (∀ c, c < nCells → c ≠ i → InRegion s.values i c → t.cells c = s.values c) ∧
      (∀ c, c < nCells → ¬InRegion s.values i c → t.cells c = s.cells c) ∧
      ∀ c, t.cells c = s.cells c ∨ t.cells c = s.values c := by
  have hfuel : unvisited
      { s with visited :=
          Function.update (fun c => if c < nCells then false else s.visited c) i true } <
        nCells := by
    have h1 := unvisited_mark (fun c => if c < nCells then false else s.visited c) i hi
      (by simp [hi])
    have h2 : (List.range nCells).countP
        (fun c => !(fun c => if c < nCells then false else s.visited c) c) = nCells := by
      rw [List.countP_eq_length.2]
      · exact List.length_range nCells
      · intro c hc
        simp [List.mem_range.1 hc]
    unfold unvisited
    simp only
    omega
  obtain ⟨t, ht, pt⟩ := expand_foldl nCells (expandCellInner_post nCells) (neighbors i)
    (fun k hk => neighbors_lt hi hk) _ hfuel
  have hstart : ∀ c, c < nCells → c ≠ i →
      Function.update (fun c => if c < nCells then false else s.visited c) i true c = false := by
    intro c hc hci
    simp [Function.update_noteq hci, hc]
  have hvis : ∀ c, InRegion s.values i c → t.visited c = true := by
    intro c h
    induction h with
    | refl => exact pt.mono i (by simp)
    | @tail b c hab hbc ih =>
      by_cases hbi : b = i
      · subst hbi
        exact pt.src_visited c hbc.2
      · exact pt.closed b ih (hstart b (inRegion_lt hi hab) hbi) hbc.1 c hbc.2
  have hreg : ∀ c, c < nCells → c ≠ i → t.visited c = true →
      t.cells c = s.values c ∧ InRegion s.values i c := by
    intro c hc hci hv
    obtain ⟨e, k, hk, hr⟩ := pt.fresh c hv (hstart c hc hci)
    exact ⟨e, Relation.ReflTransGen.head ⟨hz, hk⟩ hr⟩
  refine ⟨t, ?_, pt.values_eq, pt.correct_eq, pt.incorrect_eq, pt.state_eq, ?_, ?_, ?_, ?_⟩
  · unfold expandCell
    simp only
    rw [visitNeighbors_eq_foldl]
    exact ht
  · exact pt.stale i (Or.inl (by simp))
  · intro c hc hci hr
    exact (hreg c hc hci (hvis c hr)).1
  · intro c hc hr
    have hci : c ≠ i := by
      rintro rfl
      exact hr Relation.ReflTransGen.refl
    apply pt.stale c
    right
    by_contra hne
    exact hr (hreg c hc hci (by simpa using hne)).2
  · intro c
    by_cases h : t.visited c = true ∧
        Function.update (fun c => if c < nCells then false else s.visited c) i true c = false
    · exact Or.inr (pt.fresh c h.1 h.2).1
    · left
      apply pt.stale c
      by_cases h1 : t.visited c = true
      · left
        by_contra h2
        exact h ⟨h1, by simpa using h2⟩
      · right
        simpa using h1

/-- C3: `openCell(i)` on a cell with true value 0 returns; afterwards every cell of the
zero-connected region of `i` displays its true value, every other cell displays what it
displayed before, and the true values, both flag counters and the game state are unchanged. -/
theorem openCell_zero (s : Game) (i : Nat) (hi : i < nCells) (hv : s.values i = ZERO) :
    ∃ t, openCell i s = some t ∧
      (∀ c, c < nCells → InRegion s.values i c → t.cells c = s.values c) ∧
      (∀ c, c < nCells → ¬InRegion s.values i c → t.cells c = s.cells c) ∧
      t.values = s.values ∧ t.nCorrectFlags = s.nCorrectFlags ∧
      t.nIncorrectFlags = s.nIncorrectFlags ∧ t.state = s.state := by
  obtain ⟨t, ht, h1, h2, h3, h4, h5, h6, h7, -⟩ :=
    expandCell_post { s with cells := Function.update s.cells i (s.values i) } i hi hv
  refine ⟨t, ?_, ?_, ?_, h1, h2, h3, h4⟩
  · unfold openCell
    have hm : s.values i ≠ MINE := by rw [hv]; decide
    simp only [hm, if_false, hv, if_true]
    rw [hv] at ht
    exact ht
  · intro c hc hr
    by_cases hci : c = i
    · subst hci
      rw [h5]
      simp
    · exact h6 c hc hci hr
  · intro c hc hr
    have hci : c ≠ i := by
      rintro rfl
      exact hr Relation.ReflTransGen.refl
    rw [h7 c hc hr]
    simp [Function.update_noteq hci]

/-- Witness for C3: the corner cell 0 of `oneMine`, whose true value is 0. -/
theorem openCell_zero_witness :
    (0 < nCells ∧ oneMine.values 0 = ZERO) ∧
      ∃ t, openCell 0 oneMine = some t ∧
        (∀ c, c < nCells → InRegion oneMine.values 0 c → t.cells c = oneMine.values c) ∧
        (∀ c, c < nCells → ¬InRegion oneMine.values 0 c → t.cells c = oneMine.cells c) ∧
        t.values = oneMine.values ∧ t.nCorrectFlags = oneMine.nCorrectFlags ∧
        t.nIncorrectFlags = oneMine.nIncorrectFlags ∧ t.state = oneMine.state :=
  ⟨⟨by decide, by decide⟩, openCell_zero oneMine 0 (by decide) (by decide)⟩

/-! ## Reveal operations and the chord -/

theorem OpenPost.refl (s : Game) : OpenPost s s :=
  ⟨rfl, rfl, rfl, Or.inl rfl, fun _ => Or.inl rfl⟩

theorem OpenPost.trans {s u t : Game} (h1 : OpenPost s u) (h2 : OpenPost u t) :
    OpenPost s t where
  values_eq := h2.values_eq.trans h1.values_eq
  correct_eq := h2.correct_eq.trans h1.correct_eq
  incorrect_eq := h2.incorrect_eq.trans h1.incorrect_eq
  state_eq := by
    rcases h2.state_eq with h | h
    · rw [h]; exact h1.state_eq
    · exact Or.inr h
  cells_eq := fun c => by
    rcases h2.cells_eq c with h | h
    · rw [h]; exact h1.cells_eq c
    · rw [h, h1.values_eq]; exact Or.inr rfl

/-- Total correctness of `openCell` on a valid index: the call returns, the clicked cell
then displays its true value, the game state changes only when the cell is a mine, and the
rest is described by `OpenPost`. -/
theorem openCell_post (s : Game) (i : Nat) (hi : i < nCells) :
    ∃ t, openCell i s = some t ∧ OpenPost s t ∧ t.cells i = s.values i ∧
      (s.values i ≠ MINE → t.state = s.state) := by
  by_cases hm : s.values i = MINE
  · refine ⟨gameOver { s with cells := Function.update s.cells i (s.values i) },
      by simp [openCell, hm], ⟨gameOver_values _, gameOver_nCorrectFlags _,
        gameOver_nIncorrectFlags _, Or.inr (gameOver_state _), fun c => ?_⟩, ?_,
      fun h => absurd hm h⟩
    · rw [gameOver_cells]
      by_cases hci : c = i
      · subst hci
        right
        split_ifs <;> simp
      · simp only [Function.update_noteq hci]
        split_ifs
        · exact Or.inr rfl
        · exact Or.inl rfl
        · exact Or.inl rfl
    · rw [gameOver_cells]
      simp [hi, hm, MINE, FLAG]
  · by_cases hz : s.values i = ZERO
    · obtain ⟨t, ht, h1, h2, h3, h4, h5, -, -, h8⟩ :=
        expandCell_post { s with cells := Function.update s.cells i (s.values i) } i hi hz
      refine ⟨t, ?_, ⟨h1, h2, h3, Or.inl h4, fun c => ?_⟩, ?_, fun _ => h4⟩
      · unfold openCell
        simp only [hm, if_false, hz, if_true]
        rw [hz] at ht
        exact ht
      · rcases h8 c with h | h
        · by_cases hci : c = i
          · subst hci
            right
            rw [h]; simp
          · left
            rw [h]; simp [Function.update_noteq hci]
        · exact Or.inr h
      · rw [h5]; simp
    · refine ⟨{ s with cells := Function.update s.cells i (s.values i) },
        by simp [openCell, hm, hz], ⟨rfl, rfl, rfl, Or.inl rfl, fun c => ?_⟩, by simp,
        fun _ => rfl⟩
      by_cases hci : c = i
      · subst hci; right; simp
      · left; simp [Function.update_noteq hci]

theorem tryOpenCell_post (s : Game) (i : Nat) (hi : i < nCells) :
    ∃ t, tryOpenCell i s = some t ∧ OpenPost s t := by
  unfold tryOpenCell
  split_ifs
  · obtain ⟨t, ht, p, -⟩ := openCell_post s i hi
    exact ⟨t, ht, p⟩
  · exact ⟨s, rfl, OpenPost.refl s⟩

theorem tryOpenCell_foldl_post (l : List Nat) (hl : ∀ k ∈ l, k < nCells) (s : Game) :
    ∃ t, l.foldl (fun r k => r.bind (tryOpenCell k)) (some s) = some t ∧ OpenPost s t := by
  induction l generalizing s with
  | nil => exact ⟨s, rfl, OpenPost.refl s⟩
  | cons a l ih =>
    obtain ⟨u, hu, pu⟩ := tryOpenCell_post s a (hl a (List.mem_cons_self _ _))
    obtain ⟨t, ht, pt⟩ := ih (fun k hk => hl k (List.mem_cons_of_mem _ hk)) u
    refine ⟨t, ?_, pu.trans pt⟩
    rw [List.foldl_cons, Option.some_bind, hu]
    exact ht

/-- Total correctness of `openAll` on a valid index. -/
theorem openAll_post (s : Game) (i : Nat) (hi : i < nCells) :
    ∃ t, openAll i s = some t ∧ OpenPost s t := by
  simp only [openAll]
  split_ifs
  · exact ⟨s, rfl, OpenPost.refl s⟩
  · rw [visitNeighbors_eq_foldl]
    exact tryOpenCell_foldl_post _ (fun k hk => neighbors_lt hi hk) s
  · exact ⟨s, rfl, OpenPost.refl s⟩

theorem flagCell_values (index : Nat) (s : Game) : (flagCell index s).values = s.values := by
  simp only [flagCell]
  split_ifs
  · rw [gameOver_values, flagToggle_values]
  · rw [flagToggle_values]

theorem neighborFlags_foldl (cells : Nat → Int) (l : List Nat) (n : Int) :
    l.foldl (fun n neighbor => if cells neighbor = FLAG then n + 1 else n) n =
      n + (l.countP (fun j => decide (cells j = FLAG)) : Int) := by
  induction l generalizing n with
  | nil => simp
  | cons a l ih =>
    rw [List.foldl_cons, ih, List.countP_cons]
    by_cases h : cells a = FLAG
    · simp [h]; ring
    · simp [h]

/-- The counter `neighborFlags` of `openAll` is the number of flagged neighbours. -/
theorem neighborFlags_eq (cells : Nat → Int) (index : Nat) :
    visitNeighbors index (fun neighbor n => if cells neighbor = FLAG then n + 1 else n)
        (0 : Int) =
      (flaggedNeighbors cells index : Int) := by
  rw [visitNeighbors_eq_foldl, neighborFlags_foldl, zero_add]
  rfl

/-- A chord that opens neither a mine nor a 0 changes only hidden cells of the list. -/
theorem tryOpenCell_foldl_numbers (l : List Nat) (hl : l.Nodup) (s t : Game)
    (hnum : ∀ k ∈ l, s.cells k = UNKNOWN → s.values k ≠ MINE ∧ s.values k ≠ ZERO)
    (hrun : l.foldl (fun r k => r.bind (tryOpenCell k)) (some s) = some t) :
    ∀ c, t.cells c ≠ s.cells c → c ∈ l ∧ s.cells c = UNKNOWN := by
  induction l generalizing s with
  | nil =>
    intro c hc
    simp only [List.foldl_nil, Option.some.injEq] at hrun
    subst hrun
    exact absurd rfl hc
  | cons a l ih =>
    rw [List.nodup_cons] at hl
    rw [List.foldl_cons, Option.some_bind] at hrun
    by_cases ha : s.cells a = UNKNOWN
    · obtain ⟨hm, hz⟩ := hnum a (List.mem_cons_self _ _) ha
      have hstep : tryOpenCell a s =
          some { s with cells := Function.update s.cells a (s.values a) } := by
        simp [tryOpenCell, openCell, ha, hm, hz]
      rw [hstep] at hrun
      have hrest := ih hl.2 _ (fun k hk hku => by
        have hka : k ≠ a := fun e => hl.1 (e ▸ hk)
        simp only [Function.update_noteq hka] at hku
        exact hnum k (List.mem_cons_of_mem _ hk) hku) hrun
      intro c hc
      by_cases hca : c = a
      · subst hca
        exact ⟨List.mem_cons_self _ _, ha⟩
      · have := hrest c (by simpa [Function.update_noteq hca] using hc)
        simp only [Function.update_noteq hca] at this
        exact ⟨List.mem_cons_of_mem _ this.1, this.2⟩
    · have hstep : tryOpenCell a s = some s := by simp [tryOpenCell, ha]
      rw [hstep] at hrun
      have hrest := ih hl.2 s (fun k hk => hnum k (List.mem_cons_of_mem _ hk)) hrun
      intro c hc
      have := hrest c hc
      exact ⟨List.mem_cons_of_mem _ this.1, this.2⟩

/-- C8 (amended): `openAll(index)` returns; if it changed any display then `cells[index]`
was a revealed number equal to the count of flagged neighbours; every changed cell ends up
displaying its true value; and when no hidden neighbour of `index` holds a mine or a 0,
every changed cell is a neighbour of `index` that was UNKNOWN before the call. -/
theorem openAll_changes (s : Game) (index : Nat) (hi : index < nCells) :
    ∃ t, openAll index s = some t ∧
      ((∃ c, c < nCells ∧ t.cells c ≠ s.cells c) →
        s.cells index ≠ UNKNOWN ∧ 0 ≤ s.cells index ∧ s.cells index ≤ 8 ∧
          s.cells index = (flaggedNeighbors s.cells index : Int)) ∧
      (∀ c, c < nCells → t.cells c ≠ s.cells c → t.cells c = s.values c) ∧
      ((∀ k ∈ neighbors index, s.cells k = UNKNOWN → s.values k ≠ MINE ∧ s.values k ≠ ZERO) →
        ∀ c, c < nCells → t.cells c ≠ s.cells c → c ∈ neighbors index ∧ s.cells c = UNKNOWN) := by
  obtain ⟨t, ht, pt⟩ := openAll_post s index hi
  refine ⟨t, ht, ?_, ?_, ?_⟩
  · rintro ⟨c, -, hc⟩
    have hu : s.cells index ≠ UNKNOWN := by
      intro hu
      simp only [openAll, hu, if_true, Option.some.injEq] at ht
      subst ht
      exact hc rfl
    have hn : s.cells index = (flaggedNeighbors s.cells index : Int) := by
      by_contra hne
      simp only [openAll, hu, if_false, neighborFlags_eq, Ne.symm hne,
        Option.some.injEq] at ht
      subst ht
      exact hc rfl
    have h1 : flaggedNeighbors s.cells index ≤ (neighbors index).length :=
      List.countP_le_length _
    have h2 := neighbors_length_le index
    refine ⟨hu, ?_, ?_, hn⟩ <;> rw [hn] <;> omega
  · intro c _ hc
    rcases pt.cells_eq c with h | h
    · exact absurd h hc
    · exact h
  · intro hnum c _ hc
    by_cases hu : s.cells index = UNKNOWN
    · simp only [openAll, hu, if_true, Option.some.injEq] at ht
      subst ht
      exact absurd rfl hc
    · by_cases hn : (flaggedNeighbors s.cells index : Int) = s.cells index
      · simp only [openAll, hu, if_false, neighborFlags_eq, hn, if_true] at ht
        rw [visitNeighbors_eq_foldl] at ht
        exact tryOpenCell_foldl_numbers _ (neighbors_nodup index) s t hnum ht c hc
      · simp only [openAll, hu, if_false, neighborFlags_eq, hn, Option.some.injEq] at ht
        subst ht
        exact absurd rfl hc

/-- Witness for C8: the chord on cell 1 of `chordBoard`. -/
theorem openAll_changes_witness :
    1 < nCells ∧
      ∃ t, openAll 1 chordBoard = some t ∧
        ((∃ c, c < nCells ∧ t.cells c ≠ chordBoard.cells c) →
          chordBoard.cells 1 ≠ UNKNOWN ∧ 0 ≤ chordBoard.cells 1 ∧ chordBoard.cells 1 ≤ 8 ∧
            chordBoard.cells 1 = (flaggedNeighbors chordBoard.cells 1 : Int)) ∧
        (∀ c, c < nCells → t.cells c ≠ chordBoard.cells c → t.cells c = chordBoard.values c) ∧
        ((∀ k ∈ neighbors 1,
            chordBoard.cells k = UNKNOWN →
              chordBoard.values k ≠ MINE ∧ chordBoard.values k ≠ ZERO) →
          ∀ c, c < nCells → t.cells c ≠ chordBoard.cells c →
            c ∈ neighbors 1 ∧ chordBoard.cells c = UNKNOWN) :=
  ⟨by decide, openAll_changes chordBoard 1 (by decide)⟩

theorem tryOpenCell_skip {k : Nat} {s : Game} (h : s.cells k ≠ UNKNOWN) :
    tryOpenCell k s = some s := by
  simp [tryOpenCell, h]

theorem tryOpenCell_number {k : Nat} {s : Game} (h : s.cells k = UNKNOWN)
    (hm : s.values k ≠ MINE) (hz : s.values k ≠ ZERO) :
    tryOpenCell k s = some { s with cells := Function.update s.cells k (s.values k) } := by
  simp [tryOpenCell, openCell, h, hm, hz]

theorem tryOpenCell_mine {k : Nat} {s : Game} (h : s.cells k = UNKNOWN)
    (hm : s.values k = MINE) :
    tryOpenCell k s =
      some (gameOver { s with cells := Function.update s.cells k (s.values k) }) := by
  simp [tryOpenCell, openCell, h, hm]

/-- Counterexample to C8 as stated: on `chordBoard` the chord on cell 1 (which shows 1 and
has one flagged neighbour) opens the mine in cell 2; the game-over pass then replaces the
wrong flag on cell 0 by the number 0, so a cell that was FLAG, not UNKNOWN, changed. -/
theorem openAll_changes_flagged_cell :
    1 < nCells ∧ chordBoard.cells 0 = FLAG ∧ chordBoard.cells 0 ≠ UNKNOWN ∧
      ∃ t, openAll 1 chordBoard = some t ∧ t.cells 0 = 0 ∧
        t.cells 0 ≠ chordBoard.cells 0 := by
  have hn : neighbors 1 = [0, 30, 31, 32, 2] := by decide
  have hflags : (flaggedNeighbors chordBoard.cells 1 : Int) = chordBoard.cells 1 := by
    simp only [flaggedNeighbors, hn]
    decide
  have hopen : openAll 1 chordBoard =
      (neighbors 1).foldl (fun r k => r.bind (tryOpenCell k)) (some chordBoard) := by
    have hu : chordBoard.cells 1 ≠ UNKNOWN := by decide
    simp only [openAll, hu, if_false, neighborFlags_eq, hflags, if_true]
    rw [visitNeighbors_eq_foldl]
  refine ⟨by decide, by decide, by decide, ?_⟩
  rw [hopen, hn]
  simp only [List.foldl_cons, List.foldl_nil, Option.some_bind]
  rw [tryOpenCell_skip (by decide), Option.some_bind,
    tryOpenCell_number (by decide) (by decide) (by decide), Option.some_bind,
    tryOpenCell_number (by decide) (by decide) (by decide), Option.some_bind,
    tryOpenCell_number (by decide) (by decide) (by decide), Option.some_bind,
    tryOpenCell_mine (by decide) (by decide)]
  refine ⟨_, rfl, ?_⟩
  rw [gameOver_cells]
  decide

/-! ## The click handler -/

theorem initBoard_state {f : Nat} {draws : List Nat} {s t : Game}
    (h : initBoard f draws s = some t) :
    t.state = RUNNING ∧ t.nCorrectFlags = 0 ∧ t.nIncorrectFlags = 0 := by
  unfold initBoard at h
  rw [Option.map_eq_some'] at h
  obtain ⟨u, -, rfl⟩ := h
  exact ⟨rfl, rfl, rfl⟩

theorem flagCell_state_cases (index : Nat) (s : Game) :
    (flagCell index s).state = s.state ∨ (flagCell index s).state = GAME_OVER := by
  rw [flagCell_state]
  split_ifs
  · exact Or.inr rfl
  · exact Or.inl (flagToggle_state index s)

/-- After `initBoard` both counters are 0, so the toggle of a flag click cannot meet the win
test: `flagCell` is then the toggle alone, and a flag newly set is counted as correct exactly
when the placed true value of the cell is MINE. -/
theorem flagCell_after_initBoard {f : Nat} {draws : List Nat} {s u : Game}
    (hrun : initBoard f draws s = some u) (index : Nat) :
    flagCell index u = flagToggle index u ∧
      (u.cells index = UNKNOWN →
        (flagCell index u).cells index = FLAG ∧
          (flagCell index u).nCorrectFlags = (if u.values index = MINE then 1 else 0) ∧
          (flagCell index u).nIncorrectFlags = (if u.values index = MINE then 0 else 1)) := by
  obtain ⟨-, h1, h2⟩ := initBoard_state hrun
  have hne : ¬((flagToggle index u).nCorrectFlags = nMines ∧
      (flagToggle index u).nIncorrectFlags = 0) := by
    simp only [flagToggle, nMines]
    split_ifs <;> simp [h1]
  have hflag : flagCell index u = flagToggle index u := by
    simp only [flagCell]
    rw [if_neg hne]
  refine ⟨hflag, fun hc => ?_⟩
  rw [hflag]
  simp only [flagToggle, hc, if_true]
  split_ifs <;> simp [h1, h2]

/-- C10 (amended): in state UNINITIALIZED a released click of any button on a valid cell
runs `initBoard(cellIndex)` first and then the button's action on the board `u` it left.
When the placement loop finishes on the draws, the handler returns the result `t` of that
action on `u` (`flagCell`, `openCell`, `openAll`, or nothing for another button); the true
values of `t` are the ones `initBoard` placed, the game state is RUNNING or GAME_OVER, and
a flag set by the click is counted against the placed true value of the cell. -/
theorem click_uninitialized (button : MouseButton) (s u : Game) (index : Nat)
    (draws : List Nat) (hs : s.state = UNINITIALIZED) (hi : index < nCells)
    (hrun : initBoard index draws s = some u) :
    ∃ t, glfw_click_callback button true (index : Int) draws s = some t ∧
      t.values = u.values ∧ (t.state = RUNNING ∨ t.state = GAME_OVER) ∧
      (button = MouseButton.RIGHT → t = flagCell index u ∧ t = flagToggle index u ∧
        (u.cells index = UNKNOWN →
          t.cells index = FLAG ∧
            t.nCorrectFlags = (if u.values index = MINE then 1 else 0) ∧
            t.nIncorrectFlags = (if u.values index = MINE then 0 else 1))) ∧
      (button = MouseButton.LEFT → openCell index u = some t) ∧
      (button = MouseButton.MIDDLE → openAll index u = some t) ∧
      (button = MouseButton.OTHER → t = u) := by
  have hu := (initBoard_state hrun).1
  have hneg : ¬((index : Int) < 0) := by omega
  cases button with
  | LEFT =>
    obtain ⟨t, ht, pt, -⟩ := openCell_post u index hi
    refine ⟨t, ?_, pt.values_eq, by rw [← hu]; exact pt.state_eq, ?_, fun _ => ht, ?_, ?_⟩
    · simpa [glfw_click_callback, hs, hrun, hneg] using ht
    all_goals intro h; cases h
  | RIGHT =>
    obtain ⟨hf1, hf2⟩ := flagCell_after_initBoard hrun index
    refine ⟨flagCell index u, ?_, flagCell_values index u, ?_, fun _ => ⟨rfl, hf1, hf2⟩,
      ?_, ?_, ?_⟩
    · simp [glfw_click_callback, hs, hrun, hneg]
    · rw [← hu]
      exact flagCell_state_cases index u
    all_goals intro h; cases h
  | MIDDLE =>
    obtain ⟨t, ht, pt⟩ := openAll_post u index hi
    refine ⟨t, ?_, pt.values_eq, by rw [← hu]; exact pt.state_eq, ?_, ?_, fun _ => ht, ?_⟩
    · simpa [glfw_click_callback, hs, hrun, hneg] using ht
    all_goals intro h; cases h
  | OTHER =>
    refine ⟨u, ?_, rfl, Or.inl hu, ?_, ?_, ?_, fun _ => rfl⟩
    · simp [glfw_click_callback, hs, hrun, hneg]
    all_goals intro h; cases h

/-- The first two clicks of a game, whatever the draws: a right click on a cell and then a
left click on the same cell. The flag set by the first click is overwritten by the second
one, which leaves the counters alone. -/
theorem flag_then_reveal (s u : Game) (index : Nat) (draws : List Nat) (hi : index < nCells)
    (hd : ∀ d ∈ draws, d < nCells) (hrun : initBoard index draws (initGame s) = some u) :
    ∃ t v, glfw_click_callback MouseButton.RIGHT true (index : Int) draws (initGame s) = some t ∧
      t.state = RUNNING ∧ t.cells index = FLAG ∧
      glfw_click_callback MouseButton.LEFT true (index : Int) [] t = some v ∧
      v.state = RUNNING ∧ v.cells index = u.values index ∧ v.cells index ≠ FLAG ∧
      v.nCorrectFlags + v.nIncorrectFlags = 1 ∧ flagCount v.cells = 0 := by
  obtain ⟨inv, hc, h1, h2, h4⟩ := initBoard_after_initGame s u index draws hi hd hrun
  have hneg : ¬((index : Int) < 0) := by omega
  have hcells : ∀ c, c < nCells → u.cells c = UNKNOWN := fun c hcn => by
    rw [hc, initGame_cells, if_pos hcn]
  have hval : ∀ c, c < nCells → u.values c ≠ FLAG := by
    intro c hcn
    by_cases hm : u.values c = MINE
    · rw [hm]; decide
    · have h8 : minedNeighbors u.values c ≤ (neighbors c).length := List.countP_le_length _
      have hlen := neighbors_length_le c
      rw [inv.number c hcn hm]
      simp only [FLAG]
      omega
  have hm : u.values index ≠ MINE := inv.first
  have htog : flagToggle index u =
      { u with cells := Function.update u.cells index FLAG,
               nIncorrectFlags := u.nIncorrectFlags + 1 } := by
    simp [flagToggle, hcells index hi, hm]
  have hflag : flagCell index u = flagToggle index u := by
    simp only [flagCell]
    rw [if_neg]
    rw [htog]
    simp [h1, nMines]
  obtain ⟨v, hv, pv, hvi, hvs⟩ := openCell_post (flagCell index u) index hi
  have hvals : (flagCell index u).values = u.values := flagCell_values index u
  have hstate : (flagCell index u).state = RUNNING := by rw [hflag, htog]; exact h4
  refine ⟨flagCell index u, v, ?_, hstate, ?_, ?_, ?_, ?_, ?_, ?_, ?_⟩
  · simp [glfw_click_callback, initGame_state, hrun, hneg]
  · rw [hflag, htog]; simp
  · simpa [glfw_click_callback, hstate, hneg] using hv
  · rw [hvs (by rw [hvals]; exact hm), hstate]
  · rw [hvi, hvals]
  · rw [hvi, hvals]; exact hval index hi
  · rw [pv.correct_eq, pv.incorrect_eq, hflag, htog]
    simp [h1, h2]
  · unfold flagCount
    rw [List.countP_eq_zero]
    intro c hcr
    rw [List.mem_range] at hcr
    have hne : v.cells c ≠ FLAG := by
      by_cases hci : c = index
      · subst hci
        rw [hvi, hvals]; exact hval c hi
      · rcases pv.cells_eq c with h | h
        · rw [h, hflag, htog]
          simp only [Function.update_noteq hci]
          rw [hcells c hcr]; decide
        · rw [h, hvals]; exact hval c hcr
    simpa using hne

/-- The board after the placement run on `demoDraws` with first click 0. -/
theorem demo_board :
    ∃ u, initBoard 0 demoDraws (initGame startup) = some u ∧ u.values 0 = 3 ∧
      (∀ c, c < nCells → u.cells c = UNKNOWN) ∧ u.nCorrectFlags = 0 ∧
      u.nIncorrectFlags = 0 ∧ u.state = RUNNING ∧ mineCount u.values = nMines ∧
      u.values 1 = MINE := by
  obtain ⟨u, hu, hmines⟩ := demo_completes
  obtain ⟨inv, hc, h1, h2, h4⟩ :=
    initBoard_after_initGame startup u 0 demoDraws (by decide) demoDraws_lt hu
  have hn : neighbors 0 = [30, 31, 1] := by decide
  have h3 : u.values 0 = 3 := by
    rw [inv.number 0 (by decide) inv.first]
    simp [minedNeighbors, hn, hmines 30 (by omega) (by omega), hmines 31 (by omega) (by omega),
      hmines 1 (by omega) (by omega)]
  refine ⟨u, hu, h3, fun c hc' => ?_, h1, h2, h4, inv.count,
    hmines 1 (by omega) (by omega)⟩
  rw [hc, initGame_cells, if_pos hc']

/-- The first click of a game: a right click on cell 0, placement on `demoDraws`. -/
theorem demo_first_flag :
    ∃ t, glfw_click_callback MouseButton.RIGHT true 0 demoDraws (initGame startup) = some t ∧
      t.state = RUNNING ∧ t.cells 0 = FLAG ∧ (∀ c, c < nCells → c ≠ 0 → t.cells c = UNKNOWN) ∧
      t.values 0 = 3 ∧ t.nCorrectFlags = 0 ∧ t.nIncorrectFlags = 1 ∧
      mineCount t.values = nMines ∧ t.values 1 = MINE := by
  obtain ⟨u, hu, h3, hc, h1, h2, h4, h5, h6⟩ := demo_board
  have hc0 : u.cells 0 = UNKNOWN := hc 0 (by decide)
  have hm : u.values 0 ≠ MINE := by rw [h3]; decide
  have htog : flagToggle 0 u =
      { u with cells := Function.update u.cells 0 FLAG,
               nIncorrectFlags := u.nIncorrectFlags + 1 } := by
    simp [flagToggle, hc0, hm]
  have hflag : flagCell 0 u = flagToggle 0 u := by
    simp only [flagCell]
    rw [if_neg]
    rw [htog]
    simp [h1, nMines]
  refine ⟨flagCell 0 u, ?_, ?_, ?_, ?_, ?_, ?_, ?_, ?_, ?_⟩
  · simp [glfw_click_callback, initGame_state, hu]
  all_goals rw [hflag, htog]
  · exact h4
  · simp
  · intro c hcn hc0'
    simp only [Function.update_noteq hc0']
    exact hc c hcn
  · exact h3
  · exact h1
  · simp [h2]
  · exact h5
  · exact h6

/-- Counterexample to C10 as stated: from the state left by `initGame` (UNINITIALIZED, all
true values 0) a flag click on cell 0 does run `initBoard`: afterwards the state is RUNNING,
not UNINITIALIZED, cell 1 holds a mine, and 150 cells do. -/
theorem flag_click_runs_initBoard :
    (initGame startup).state = UNINITIALIZED ∧ (0 : Nat) < nCells ∧
      ∃ t, glfw_click_callback MouseButton.RIGHT true 0 demoDraws (initGame startup) = some t ∧
        t.state = RUNNING ∧ t.state ≠ UNINITIALIZED ∧ t.values 1 = MINE ∧ t.values 1 ≠ 0 ∧
        mineCount t.values = 150 := by
  obtain ⟨t, ht, h1, -, -, -, -, -, h2, h3⟩ := demo_first_flag
  refine ⟨initGame_state _, by decide, t, ht, h1, ?_, h3, ?_, h2⟩
  · rw [h1]; decide
  · rw [h3]; decide

/-- Witness for C10: the first click of a game is a flag click on cell 0. -/
theorem click_uninitialized_witness :
    ∃ u, ((initGame startup).state = UNINITIALIZED ∧ 0 < nCells ∧
        initBoard 0 demoDraws (initGame startup) = some u) ∧
      ∃ t, glfw_click_callback MouseButton.RIGHT true ((0 : Nat) : Int) demoDraws
          (initGame startup) = some t ∧
        t.values = u.values ∧ (t.state = RUNNING ∨ t.state = GAME_OVER) ∧
        (MouseButton.RIGHT = MouseButton.RIGHT → t = flagCell 0 u ∧ t = flagToggle 0 u ∧
          (u.cells 0 = UNKNOWN →
            t.cells 0 = FLAG ∧
              t.nCorrectFlags = (if u.values 0 = MINE then 1 else 0) ∧
              t.nIncorrectFlags = (if u.values 0 = MINE then 0 else 1))) ∧
        (MouseButton.RIGHT = MouseButton.LEFT → openCell 0 u = some t) ∧
        (MouseButton.RIGHT = MouseButton.MIDDLE → openAll 0 u = some t) ∧
        (MouseButton.RIGHT = MouseButton.OTHER → t = u) := by
  obtain ⟨u, hu, -⟩ := demo_completes
  exact ⟨u, ⟨initGame_state _, by decide, hu⟩,
    click_uninitialized MouseButton.RIGHT (initGame startup) u 0 demoDraws
      (initGame_state _) (by decide) hu⟩

/-- The second click of the demonstration game: a left click on the flagged cell 0. -/
theorem demo_open_flagged :
    ∃ t u, glfw_click_callback MouseButton.RIGHT true 0 demoDraws (initGame startup) = some t ∧
      t.state = RUNNING ∧ t.cells 0 = FLAG ∧
      glfw_click_callback MouseButton.LEFT true 0 [] t = some u ∧
      u.state = RUNNING ∧ u.cells 0 = 3 ∧ (∀ c, c < nCells → c ≠ 0 → u.cells c = UNKNOWN) ∧
      u.nCorrectFlags = 0 ∧ u.nIncorrectFlags = 1 := by
  obtain ⟨t, ht, h1, h2, h3, h4, h5, h6, -, -⟩ := demo_first_flag
  have hm : t.values 0 ≠ MINE := by rw [h4]; decide
  have hz : t.values 0 ≠ ZERO := by rw [h4]; decide
  refine ⟨t, { t with cells := Function.update t.cells 0 (t.values 0) }, ht, h1, h2, ?_, h1,
    ?_, ?_, h5, h6⟩
  · simp [glfw_click_callback, h1, openCell, hm, hz]
  · simp [h4]
  · intro c hc hc0
    simp only [Function.update_noteq hc0]
    exact h3 c hc hc0

/-- C6 at its failing input: after a right click and then a left click on cell 0 the game is
RUNNING, the two flag counters add up to 1, and no cell is displayed as FLAG. -/
theorem flag_counters_drift :
    ∃ t u, glfw_click_callback MouseButton.RIGHT true 0 demoDraws (initGame startup) = some t ∧
      glfw_click_callback MouseButton.LEFT true 0 [] t = some u ∧
      u.state = RUNNING ∧ u.nCorrectFlags + u.nIncorrectFlags = 1 ∧ flagCount u.cells = 0 := by
  obtain ⟨t, u, ht, -, -, hu, h1, h2, h3, h4, h5⟩ := demo_open_flagged
  refine ⟨t, u, ht, hu, h1, by rw [h4, h5]; rfl, ?_⟩
  unfold flagCount
  rw [List.countP_eq_zero]
  intro c hc
  rw [List.mem_range] at hc
  by_cases hc0 : c = 0
  · subst hc0
    simp [h2, FLAG]
  · simp [h3 c hc hc0, UNKNOWN, FLAG]

/-- C7 at its failing input: in a RUNNING game cell 0 is displayed as FLAG; the left click on
it is no no-op, the cell is revealed and shows 3. -/
theorem left_click_opens_flagged_cell :
    ∃ t u, glfw_click_callback MouseButton.RIGHT true 0 demoDraws (initGame startup) = some t ∧
      t.state = RUNNING ∧ t.cells 0 = FLAG ∧
      glfw_click_callback MouseButton.LEFT true 0 [] t = some u ∧ u.cells 0 = 3 := by
  obtain ⟨t, u, ht, h1, h2, hu, -, h3, -⟩ := demo_open_flagged
  exact ⟨t, u, ht, h1, h2, hu, h3⟩

end Minesweeper
